import Mathlib

/-!
Verification of the PKGBUILD manifest parser of `pkgmanager`
(`src/rust/src/core/pkgbuild.rs`).

The Rust parser works by running a fixed set of compiled regular
expressions over the manifest text:

* `re_double_quoted = (?m)^\s*([a-zA-Z_][a-zA-Z0-9_]*)\s*=\s*"([^"\n#]*?)"\s*(?:#.*)?$`
* `re_single_quoted` — same shape with single quotes,
* `re_unquoted      = (?m)^\s*([a-zA-Z_][a-zA-Z0-9_]*)\s*=\s*([^'"\n#]+?)\s*(?:#.*)?$`
* `re_array         = (?ms)^\s*([a-zA-Z_][a-zA-Z0-9_]*)\s*=\s*\(\s*(.*?)\s*\)`
* `re_comment       = (?m)#.*$`
* `re_simple        = (?m)^([a-zA-Z_][a-zA-Z0-9_]*)\s*=\s*(.*)$`

This development shallowly embeds the parser over `List Char`.  The three
scalar regexes and the fallback regex are anchored with `(?m)^...$`, so they
are modelled as per-line matchers (the manifest text is split at newline
characters, exactly where `(?m)` places its anchors); the `\s` runs inside a
matched line are then intra-line.  Each matcher function below reproduces the
exact backtracking behaviour of its regex on a line, which for these concrete
patterns is deterministic (the character classes exclude the respective
delimiters, so non-greedy repetition has a unique solution).  The array regex
has the `s` flag and can span lines; it is modelled by a scanner over the
whole text that attempts a match at every line start and continues after the
end of a successful match, mirroring `captures_iter`.  File I/O is out of
scope: the entry point takes the manifest content (already read into memory)
together with the path used for error reporting.
-/

namespace Pkgbuild

/-- Text is modelled as a list of characters. -/
abbrev Str := List Char

/-- The double-quote character (written via its code point to keep the
source free of quote-heavy literals). -/
def dquoteChar : Char := Char.ofNat 34

/-- The single-quote character. -/
def squoteChar : Char := Char.ofNat 39

/-- ASCII whitespace as matched by the `\s` class and trimmed by
`str::trim` on the inputs arising here. -/
def isWs (c : Char) : Bool :=
  c = ' ' || c = '\t' || c = '\n' || c = '\r' || c = '\x0b' || c = '\x0c'

/-- Quote characters, as removed by `clean_array_content` and by the
`trim_matches` call of `fallback_parse`. -/
def isQuoteChar (c : Char) : Bool := c = squoteChar || c = dquoteChar

/-- `str::trim`: remove leading and trailing whitespace. -/
def trimWs (s : Str) : Str :=
  ((s.dropWhile isWs).reverse.dropWhile isWs).reverse

/-- `[a-zA-Z_]`, the first character of a key. -/
def isIdentStart (c : Char) : Bool := c.isAlpha || c = '_'

/-- `[a-zA-Z0-9_]`, the remaining characters of a key. -/
def isIdentChar (c : Char) : Bool := c.isAlphanum || c = '_'

/-- Maximal-munch scan of a key `[a-zA-Z_][a-zA-Z0-9_]*`.  Returns the key
and the rest of the input.  (For these regexes maximal munch is exact: a
shorter identifier match would have to be followed by `\s*=`, which fails on
an identifier character.) -/
def takeIdent : Str → Option (Str × Str)
  | [] => none
  | c :: rest =>
    if isIdentStart c then
      some (c :: rest.takeWhile isIdentChar, rest.dropWhile isIdentChar)
    else none

/-- A key is a well-formed identifier. -/
def identOk : Str → Bool
  | [] => false
  | c :: cs => isIdentStart c && cs.all isIdentChar

/-- Common prefix `^\s*KEY\s*=` of the three scalar regexes: leading
whitespace, a key, whitespace, and the equals sign.  Returns the key and the
text after the `=`. -/
def matchKeyEq (line : Str) : Option (Str × Str) :=
  match takeIdent (line.dropWhile isWs) with
  | some (key, rest) =>
    match rest.dropWhile isWs with
    | '=' :: rest2 => some (key, rest2)
    | _ => none
  | none => none

/-- The quoted value `([^q\n#]*?)q` for quote character `q`: the characters
up to the first closing quote, none of which may be `#` (the class excludes
it, and excludes the quote itself, so the non-greedy capture is the unique
run ending at the first quote).  Returns the capture and the rest. -/
def scanQuotedValue (q : Char) : Str → Option (Str × Str)
  | [] => none
  | c :: rest =>
    if c = q then some ([], rest)
    else if c = '#' then none
    else
      match scanQuotedValue q rest with
      | some (cap, rem) => some (c :: cap, rem)
      | none => none

/-- The line-trailer `\s*(?:#.*)?$`: only whitespace, optionally followed by
a `#` comment, may remain. -/
def restIsCommentOrEnd (s : Str) : Bool :=
  match s.dropWhile isWs with
  | [] => true
  | c :: _ => c = '#'

/-- One line of `re_double_quoted` / `re_single_quoted` (parameterised by
the quote character `q`).  On success, returns the key and the captured
value; the value is returned already trimmed, as `process_variable_matches`
applies `.trim()` to every captured value before using it. -/
def matchQuotedLine (q : Char) (line : Str) : Option (Str × Str) :=
  match matchKeyEq line with
  | some (key, rest) =>
    match rest.dropWhile isWs with
    | c :: rest2 =>
      if c = q then
        match scanQuotedValue q rest2 with
        | some (cap, rem) =>
          if restIsCommentOrEnd rem then some (key, trimWs cap) else none
        | none => none
      else none
    | [] => none
  | none => none

/-- One line of `re_unquoted`.  Writing `h` for the segment between the `=`
and the first `#` (or the end of the line), the regex
`\s*([^'"\n#]+?)\s*(?:#.*)?$` matches exactly when `h` is non-empty and
contains no quote character, and the `.trim()`-ed capture is then `trimWs h`
(the non-greedy capture itself is `h` without its maximal leading and
trailing whitespace runs when `h` has a non-blank character, and a single
space when `h` is all blank — both trim to `trimWs h`). -/
def matchUnquotedLine (line : Str) : Option (Str × Str) :=
  match matchKeyEq line with
  | some (key, rest) =>
    let h := rest.takeWhile (fun c => c ≠ '#')
    if h.isEmpty then none
    else if h.any isQuoteChar then none
    else some (key, trimWs h)
  | none => none

/-- One line of `re_simple = (?m)^([a-zA-Z_][a-zA-Z0-9_]*)\s*=\s*(.*)$`
together with the value clean-up performed by `fallback_parse`: the capture
is trimmed, comments are removed (`re_comment`), it is trimmed again, and
surrounding quote characters are stripped from both ends (`trim_matches`).
Note the regex has no leading `\s*`: the key must start the line. -/
def matchFallbackLine (line : Str) : Option (Str × Str) :=
  match takeIdent line with
  | some (key, rest) =>
    match rest.dropWhile isWs with
    | '=' :: rest2 =>
      let v1 := trimWs rest2
      let v2 := trimWs (v1.takeWhile (fun c => c ≠ '#'))
      some (key, ((v2.dropWhile isQuoteChar).reverse.dropWhile isQuoteChar).reverse)
    | _ => none
  | none => none

/-- Split the text at newlines; `(?m)` anchors match exactly at these
boundaries. -/
def splitLines : Str → List Str
  | [] => [[]]
  | c :: rest =>
    if c = '\n' then [] :: splitLines rest
    else
      match splitLines rest with
      | l :: ls => (c :: l) :: ls
      | [] => [[c]]

/-- Join lines with newlines (used to state properties about manifests
built from given lines). -/
def joinLines : List Str → Str
  | [] => []
  | [l] => l
  | l :: ls => l ++ '\n' :: joinLines ls

/-- `re_comment.replace_all(_, "")`: `(?m)#.*$` deletes, on every line, the
segment from the first `#` to the end of the line (the newline itself is
kept, since `.` does not match it).  Modelled per line: each line is cut at
its first `#`. -/
def stripComments (s : Str) : Str :=
  joinLines ((splitLines s).map fun l => l.takeWhile fun c => c ≠ '#')

/-- `.replace(['\n', '\t'], " ")`. -/
def mapNlTab (s : Str) : Str :=
  s.map fun c => if c = '\n' || c = '\t' then ' ' else c

/-- `.replace(['\'', '"'], "")`. -/
def removeQuotes (s : Str) : Str :=
  s.filter fun c => !isQuoteChar c

/-- `.replace("  ", " ")`: `str::replace` substitutes non-overlapping
occurrences left to right. -/
def replaceDoubleSpace : Str → Str
  | ' ' :: ' ' :: rest => ' ' :: replaceDoubleSpace rest
  | c :: rest => c :: replaceDoubleSpace rest
  | [] => []

/-- `str::split_whitespace`, with an accumulator for the current token. -/
def splitWsAux : Str → Str → List Str
  | [], acc => if acc.isEmpty then [] else [acc.reverse]
  | c :: rest, acc =>
    if isWs c then
      if acc.isEmpty then splitWsAux rest []
      else acc.reverse :: splitWsAux rest []
    else splitWsAux rest (c :: acc)

/-- `str::split_whitespace`: maximal runs of non-whitespace characters. -/
def splitWs (s : Str) : List Str := splitWsAux s []

/-- `clean_array_content`: remove comments, replace newlines/tabs by
spaces, remove quotes, collapse double spaces, split on whitespace and keep
the non-empty fields. -/
def clean_array_content (content : Str) : List Str :=
  let cleaned := stripComments content
  let normalized := replaceDoubleSpace (removeQuotes (mapNlTab cleaned))
  (splitWs normalized).filter fun s => !s.isEmpty

/-- Modelled from the spec's words for §4.3 / C4 (the claim-side
description of array cleaning): comment suffixes stripped per physical
line, quote characters removed, whitespace collapsed, split on whitespace
into non-empty tokens in declaration order. -/
def specArrayClean (content : Str) : List Str :=
  (splitWs (removeQuotes (stripComments content))).filter fun s => !s.isEmpty

/-- One attempted match of `re_array` at a line start: `^\s*` (which may
span newlines), a key, `=`, `\(`, leading `\s*`, then the non-greedy body
running to the first `)`, with the whitespace run before the `)` absorbed
by the final `\s*`.  Returns the key, the captured body and the rest of the
text after the `)`. -/
def matchArrayAt (s : Str) : Option (Str × Str × Str) :=
  match takeIdent (s.dropWhile isWs) with
  | some (key, r1) =>
    match r1.dropWhile isWs with
    | '=' :: r2 =>
      match r2.dropWhile isWs with
      | '(' :: r3 =>
        let r4 := r3.dropWhile isWs
        if r4.any (fun c => c = ')') then
          let rawBody := r4.takeWhile fun c => c ≠ ')'
          let rest := (r4.dropWhile (fun c => c ≠ ')')).tail
          some (key, (rawBody.reverse.dropWhile isWs).reverse, rest)
        else none
      | _ => none
    | _ => none
  | none => none

/-- Advance to the start of the next line. -/
def nextLine (s : Str) : Str := (s.dropWhile fun c => c ≠ '\n').tail

/-- `captures_iter` for `re_array`: attempt a match at each line start (the
only positions where `(?m)^` can match); after a successful match resume at
the first line start past the match, after a failed attempt at the next
line start.  Fuel-driven; `find_array_matches` supplies enough fuel, since
every step strictly shortens the text. -/
def arrayScanFuel : Nat → Str → List (Str × Str)
  | 0, _ => []
  | _, [] => []
  | fuel + 1, s =>
    match matchArrayAt s with
    | some (key, body, rest) => (key, body) :: arrayScanFuel fuel (nextLine rest)
    | none => arrayScanFuel fuel (nextLine s)

/-- All `re_array` matches of the text, in order. -/
def find_array_matches (content : Str) : List (Str × Str) :=
  arrayScanFuel (content.length + 1) content

/-- `PkgbuildInfo`: the record extracted from a PKGBUILD file. -/
structure PkgbuildInfo where
  name : Str
  version : Str
  release : Str
  arch : List Str
  depends : List Str
  make_depends : List Str
  check_depends : List Str
deriving DecidableEq, Repr

/-- `PkgbuildInfo::new` / `Default::default`. -/
def PkgbuildInfo.new : PkgbuildInfo :=
  ⟨[], [], [], [], [], [], []⟩

instance : Inhabited PkgbuildInfo := ⟨PkgbuildInfo.new⟩

/-- `full_version`: `format!("{}-{}", version, release)`. -/
def PkgbuildInfo.full_version (info : PkgbuildInfo) : Str :=
  info.version ++ '-' :: info.release

/-- `all_dependencies`: runtime, then build-time, then test dependencies. -/
def PkgbuildInfo.all_dependencies (info : PkgbuildInfo) : List Str :=
  info.depends ++ info.make_depends ++ info.check_depends

/-- `has_dependencies`. -/
def PkgbuildInfo.has_dependencies (info : PkgbuildInfo) : Bool :=
  !info.depends.isEmpty || !info.make_depends.isEmpty || !info.check_depends.isEmpty

/-- The key `pkgname`. -/
def pkgnameKey : Str := ['p', 'k', 'g', 'n', 'a', 'm', 'e']

/-- The key `pkgver`. -/
def pkgverKey : Str := ['p', 'k', 'g', 'v', 'e', 'r']

/-- The key `pkgrel`. -/
def pkgrelKey : Str := ['p', 'k', 'g', 'r', 'e', 'l']

/-- The key `arch`. -/
def archKey : Str := ['a', 'r', 'c', 'h']

/-- The key `depends`. -/
def dependsKey : Str := ['d', 'e', 'p', 'e', 'n', 'd', 's']

/-- The key `makedepends`. -/
def makedependsKey : Str := ['m', 'a', 'k', 'e', 'd', 'e', 'p', 'e', 'n', 'd', 's']

/-- The key `checkdepends`. -/
def checkdependsKey : Str := ['c', 'h', 'e', 'c', 'k', 'd', 'e', 'p', 'e', 'n', 'd', 's']

/-- The body of the `for cap in matches` loop shared by
`process_variable_matches` and `fallback_parse`: a recognized scalar key
sets its field only when the field is still empty; other keys do nothing.
(The captured value has already been processed by the match function.) -/
def applyScalarMatch (info : PkgbuildInfo) (m : Str × Str) : PkgbuildInfo :=
  if m.1 = pkgnameKey then
    if info.name.isEmpty then { info with name := m.2 } else info
  else if m.1 = pkgverKey then
    if info.version.isEmpty then { info with version := m.2 } else info
  else if m.1 = pkgrelKey then
    if info.release.isEmpty then { info with release := m.2 } else info
  else info

/-- `process_variable_matches`, given the list of captures of one regex
pass (the regex and content having been resolved to their match list). -/
def process_variable_matches (ms : List (Str × Str)) (info : PkgbuildInfo) :
    PkgbuildInfo :=
  ms.foldl applyScalarMatch info

/-- `parse_single_variables`: the double-quoted pass, then the
single-quoted pass, then the unquoted pass, each over the whole text. -/
def parse_single_variables (content : Str) (info : PkgbuildInfo) : PkgbuildInfo :=
  let lines := splitLines content
  process_variable_matches (lines.filterMap matchUnquotedLine)
    (process_variable_matches (lines.filterMap (matchQuotedLine squoteChar))
      (process_variable_matches (lines.filterMap (matchQuotedLine dquoteChar)) info))

/-- The body of the `for cap in array_matches` loop of
`parse_array_variables`: the key is trimmed and dispatched; each recognized
array key overwrites its field with the cleaned body; other keys do
nothing. -/
def apply_array_match (info : PkgbuildInfo) (m : Str × Str) : PkgbuildInfo :=
  let key := trimWs m.1
  let cleaned := clean_array_content m.2
  if key = archKey then { info with arch := cleaned }
  else if key = dependsKey then { info with depends := cleaned }
  else if key = makedependsKey then { info with make_depends := cleaned }
  else if key = checkdependsKey then { info with check_depends := cleaned }
  else info

/-- `parse_array_variables`. -/
def parse_array_variables (content : Str) (info : PkgbuildInfo) : PkgbuildInfo :=
  (find_array_matches content).foldl apply_array_match info

/-- The `re_simple` captures of the text, with the per-capture value
clean-up of `fallback_parse` already applied. -/
def fallbackMatches (content : Str) : List (Str × Str) :=
  (splitLines content).filterMap matchFallbackLine

/-- `fallback_parse`: the loose pass, with the same guarded field-setting
as `process_variable_matches`. -/
def fallback_parse (content : Str) (info : PkgbuildInfo) : PkgbuildInfo :=
  process_variable_matches (fallbackMatches content) info

/-- The record after the scalar pass and the array pass (the state at the
fallback decision point in `parse`). -/
def primaryPasses (content : Str) : PkgbuildInfo :=
  parse_array_variables content (parse_single_variables content PkgbuildInfo.new)

/-- Whether a mandatory scalar field is still missing. -/
def missingRequired (info : PkgbuildInfo) : Bool :=
  info.name.isEmpty || info.version.isEmpty || info.release.isEmpty

/-- The record built by `parse` before validation: the scalar pass, the
array pass, and — only if a mandatory scalar field is still empty — the
fallback pass. -/
def parseInfo (content : Str) : PkgbuildInfo :=
  let info := primaryPasses content
  if missingRequired info then fallback_parse content info else info

/-- The error type; `parse` can only produce the `pkgbuild_parse` variant
(the file-read error is out of scope here, since the entry point takes the
already-read content). -/
inductive BuilderError where
  | pkgbuild_parse (message : Str) (path : Str)
deriving DecidableEq, Repr

/-- The message built by `validate_info` (the `format!` string of the Rust
source, with the found values spliced in). -/
def validationMsg (info : PkgbuildInfo) : Str :=
  ("Missing required variables. Found: pkgname='").toList ++ info.name
    ++ ("', pkgver='").toList ++ info.version
    ++ ("', pkgrel='").toList ++ info.release
    ++ ("'. This suggests the PKGBUILD format is unusual or contains complex variable assignments.").toList

/-- `validate_info` followed by `Ok(info)`: the tail of `parse`. -/
def validate_info (info : PkgbuildInfo) (path : Str) : Except BuilderError PkgbuildInfo :=
  if missingRequired info then
    .error (.pkgbuild_parse (validationMsg info) path)
  else .ok info

/-- `PkgbuildParser::parse`, with the file read abstracted away: the
manifest content is passed in, the path is used for error reporting. -/
def parse (path : Str) (content : Str) : Except BuilderError PkgbuildInfo :=
  validate_info (parseInfo content) path

/-- The parser object.  In Rust it holds only the six compiled regexes,
which are fixed constants; their behaviour is embedded in the matcher
functions above, so the object itself carries no state. -/
structure PkgbuildParser where
deriving DecidableEq

/-- `PkgbuildParser::new`: compiling the six constant patterns always
succeeds. -/
def PkgbuildParser.new : Except BuilderError PkgbuildParser := .ok {}

/-- The method form of `parse`: the receiver is immutable and unused
beyond its compiled patterns. -/
def PkgbuildParser.parseFile (_self : PkgbuildParser) (path content : Str) :
    Except BuilderError PkgbuildInfo :=
  parse path content

/-- Substring test (used to state what the validation error echoes). -/
def leadsWith : Str → Str → Bool
  | [], _ => true
  | _ :: _, [] => false
  | c :: p, d :: s => c = d && leadsWith p s

/-- `occursIn pat s`: `pat` occurs contiguously in `s`. -/
def occursIn (pat : Str) : Str → Bool
  | [] => pat.isEmpty
  | s@(_ :: rest) => leadsWith pat s || occursIn pat rest

/-! ### Claim-side notions

The spec (§4.2, §6, §8) speaks of the three scalar quoting styles, of scan
order, and of first/last-match precedence.  The following definitions state
those notions so the claims can be formalised against the embedding. -/

/-- The three scalar quoting styles of the spec grammar. -/
inductive QStyle where
  | dq
  | sq
  | uq
deriving DecidableEq

/-- The position of a style in the fixed pass order of
`parse_single_variables` (double-quoted, then single-quoted, then
unquoted). -/
def styleRank : QStyle → Nat
  | .dq => 0
  | .sq => 1
  | .uq => 2

/-- Modelled from the spec grammar of §6, amended by the `#` exclusion the
code's character classes impose: a quoted VALUE excludes the matching quote
character, the newline, and `#`; an unquoted VALUE excludes both quote
characters, the newline, and `#`. -/
def valueOk : QStyle → Str → Prop
  | .dq, v => dquoteChar ∉ v ∧ '\n' ∉ v ∧ '#' ∉ v
  | .sq, v => squoteChar ∉ v ∧ '\n' ∉ v ∧ '#' ∉ v
  | .uq, v => dquoteChar ∉ v ∧ squoteChar ∉ v ∧ '\n' ∉ v ∧ '#' ∉ v

instance : ∀ (st : QStyle) (v : Str), Decidable (valueOk st v) := by
  intro st v
  cases st <;> (unfold valueOk; infer_instance)

/-- The canonical scalar assignment line `KEY=VALUE` in the given quoting
style. -/
def mkAssign : QStyle → Str → Str → Str
  | .dq, k, v => k ++ '=' :: dquoteChar :: (v ++ [dquoteChar])
  | .sq, k, v => k ++ '=' :: squoteChar :: (v ++ [squoteChar])
  | .uq, k, v => k ++ '=' :: v

/-- The line matcher of a given style's pass. -/
def matchStyle : QStyle → Str → Option (Str × Str)
  | .dq => matchQuotedLine dquoteChar
  | .sq => matchQuotedLine squoteChar
  | .uq => matchUnquotedLine

/-- All scalar captures of the three passes, in scan order: the whole
double-quoted pass, then the whole single-quoted pass, then the unquoted
pass, each in line order. -/
def allScalarMatches (content : Str) : List (Str × Str) :=
  (splitLines content).filterMap (matchQuotedLine dquoteChar)
    ++ (splitLines content).filterMap (matchQuotedLine squoteChar)
    ++ (splitLines content).filterMap matchUnquotedLine

/-- The value retained for `key` by a guarded first-match-wins scan of the
capture list, starting from `cur`: a capture for `key` is taken only while
the accumulated value is still empty.  (This is the per-field content of
`process_variable_matches`.) -/
def scalarFold (key : Str) (ms : List (Str × Str)) (cur : Str) : Str :=
  ms.foldl (fun c m => if m.1 = key && c.isEmpty then m.2 else c) cur

/-- The cleaned body of the last match for `key` in the capture list, or
the default when `key` never matches.  (This is the per-field content of
`parse_array_variables`: last match wins.) -/
def lastClean (key : Str) (ms : List (Str × Str)) (dflt : List Str) : List Str :=
  ms.foldl (fun c m => if trimWs m.1 = key then clean_array_content m.2 else c) dflt

/-- A well-formed list token (C10): non-empty, and free of whitespace,
quote characters and `#`. -/
def goodToken (t : Str) : Prop :=
  t ≠ [] ∧ ∀ c ∈ t, isWs c = false ∧ c ≠ squoteChar ∧ c ≠ dquoteChar ∧ c ≠ '#'

instance (t : Str) : Decidable (goodToken t) := by unfold goodToken; infer_instance

/-- All four list fields of a record consist of well-formed tokens. -/
def goodLists (info : PkgbuildInfo) : Prop :=
  (∀ t ∈ info.arch, goodToken t) ∧ (∀ t ∈ info.depends, goodToken t) ∧
    (∀ t ∈ info.make_depends, goodToken t) ∧ (∀ t ∈ info.check_depends, goodToken t)

instance (info : PkgbuildInfo) : Decidable (goodLists info) := by
  unfold goodLists; infer_instance

/-! ### Concrete manifests used by the claims -/

/-- A path for the concrete scenarios. -/
def demoPath : Str := ("PKGBUILD").toList

/-- The six-line manifest of the spec's first concrete scenario. -/
def demoContent : Str :=
  ("pkgname=\"demo\"\npkgver=\"1.0.0\"\npkgrel=1\narch=('x86_64' 'aarch64')\ndepends=('glibc')\nmakedepends=('gcc' 'make')").toList

/-- The record the spec's first concrete scenario expects. -/
def demoInfo : PkgbuildInfo where
  name := ("demo").toList
  version := ("1.0.0").toList
  release := ("1").toList
  arch := [("x86_64").toList, ("aarch64").toList]
  depends := [("glibc").toList]
  make_depends := [("gcc").toList, ("make").toList]
  check_depends := []

/-- A manifest whose double-quoted `pkgname` VALUE contains `#`, legal per
the spec grammar of §6 (which excludes only the matching quote and the
newline from a quoted VALUE). -/
def hashValueContent : Str :=
  ("pkgname=\"a#b\"\npkgver=\"1.0\"\npkgrel=\"1\"").toList

/-- The multi-line array assignment with an inline comment from the spec's
second concrete scenario. -/
def multiArrayContent : Str :=
  ("depends=(\n    'dep1'\n    'dep2>=1.0'  # comment\n    'dep3'\n)").toList

/-- A manifest declaring `pkgname` and `pkgver` but no `pkgrel`. -/
def missingRelContent : Str :=
  ("pkgname=\"demo\"\npkgver=\"1.0.0\"\n").toList

/-- A manifest declaring none of `pkgname`/`pkgver`/`pkgrel`. -/
def nonePresentContent : Str :=
  ("foo_bar\nbuild() (\n  make\n)\n").toList

/-! ### Helper lemmas: characters and scanning -/

theorem takeWhile_all {p : Char → Bool} {l : Str} (h : ∀ x ∈ l, p x = true) :
    l.takeWhile p = l := by
  induction l with
  | nil => rfl
  | cons c cs ih =>
    simp [List.takeWhile_cons, h c (by simp), ih fun x hx => h x (by simp [hx])]

theorem identStart_not_ws {c : Char} (h : isIdentStart c = true) : isWs c = false := by
  cases hw : isWs c
  · rfl
  · exfalso
    have hc : c = ' ' ∨ c = '\t' ∨ c = '\n' ∨ c = '\r' ∨ c = '\x0b' ∨ c = '\x0c' := by
      simpa [isWs, or_assoc] using hw
    rcases hc with rfl | rfl | rfl | rfl | rfl | rfl <;> exact absurd h (by decide)

theorem takeIdent_key (k rest : Str) (hk : identOk k = true) :
    takeIdent (k ++ '=' :: rest) = some (k, '=' :: rest) := by
  cases k with
  | nil => simp [identOk] at hk
  | cons c cs =>
    have h12 : isIdentStart c = true ∧ ∀ x ∈ cs, isIdentChar x = true := by
      simpa [identOk, List.all_eq_true] using hk
    have h2 : ∀ x ∈ cs, isIdentChar x := h12.2
    simp only [List.cons_append, takeIdent, h12.1, if_pos,
      List.takeWhile_append_of_pos h2, List.dropWhile_append_of_pos h2,
      List.takeWhile_cons, List.dropWhile_cons]
    have he : isIdentChar '=' = false := by decide
    simp [he]

theorem matchKeyEq_key (k rest : Str) (hk : identOk k = true) :
    matchKeyEq (k ++ '=' :: rest) = some (k, rest) := by
  cases k with
  | nil => simp [identOk] at hk
  | cons c cs =>
    have h1 : isIdentStart c = true := by
      have := (by simpa [identOk, List.all_eq_true] using hk :
        isIdentStart c = true ∧ ∀ x ∈ cs, isIdentChar x = true)
      exact this.1
    have hnw : ¬ isWs c = true := by simp [identStart_not_ws h1]
    unfold matchKeyEq
    rw [List.cons_append, List.dropWhile_cons_of_neg hnw, ← List.cons_append,
      takeIdent_key _ _ hk]
    have he : ¬ isWs '=' = true := by decide
    simp [List.dropWhile_cons_of_neg he]

theorem scanQuotedValue_closed {q : Char} (v rest : Str) (hq : q ∉ v) (hh : '#' ∉ v) :
    scanQuotedValue q (v ++ q :: rest) = some (v, rest) := by
  induction v with
  | nil => simp [scanQuotedValue]
  | cons c cs ih =>
    have hq' : q ∉ cs := fun h => hq (List.mem_cons_of_mem _ h)
    have hh' : '#' ∉ cs := fun h => hh (List.mem_cons_of_mem _ h)
    have hcq : ¬ c = q := by intro h; subst h; exact hq (List.mem_cons_self _ _)
    have hch : ¬ c = '#' := by intro h; subst h; exact hh (List.mem_cons_self _ _)
    simp [scanQuotedValue, hcq, hch, ih hq' hh']

/-! ### Helper lemmas: the scalar line matchers on canonical assignments -/

theorem matchQuotedLine_own {q : Char} (k v : Str) (hk : identOk k = true)
    (hqw : ¬ isWs q = true) (hq : q ∉ v) (hh : '#' ∉ v) :
    matchQuotedLine q (k ++ '=' :: q :: (v ++ [q])) = some (k, trimWs v) := by
  unfold matchQuotedLine
  rw [matchKeyEq_key _ _ hk]
  simp only [List.dropWhile_cons_of_neg hqw]
  have hv : v ++ [q] = v ++ q :: [] := rfl
  simp [hv, scanQuotedValue_closed v [] hq hh, restIsCommentOrEnd]

theorem matchQuotedLine_other_quote {q q' : Char} (k v : Str) (hk : identOk k = true)
    (hqw : ¬ isWs q' = true) (hne : ¬ q' = q) :
    matchQuotedLine q (k ++ '=' :: q' :: (v ++ [q'])) = none := by
  unfold matchQuotedLine
  rw [matchKeyEq_key _ _ hk]
  simp only [List.dropWhile_cons_of_neg hqw]
  simp [hne]

theorem matchQuotedLine_on_unquoted {q : Char} (k v : Str) (hk : identOk k = true)
    (hq : q ∉ v) : matchQuotedLine q (k ++ '=' :: v) = none := by
  unfold matchQuotedLine
  rw [matchKeyEq_key _ _ hk]
  cases hd : v.dropWhile isWs with
  | nil => simp [hd]
  | cons c r =>
    have hc : c ∈ v := by
      have hm : c ∈ v.dropWhile isWs := by rw [hd]; exact List.mem_cons_self _ _
      exact List.dropWhile_subset _ hm
    have hne : ¬ c = q := by intro h; subst h; exact hq hc
    simp [hd, hne]

theorem matchUnquotedLine_own (k v : Str) (hk : identOk k = true)
    (hdq : dquoteChar ∉ v) (hsq : squoteChar ∉ v) (hh : '#' ∉ v) (hne : v ≠ []) :
    matchUnquotedLine (k ++ '=' :: v) = some (k, trimWs v) := by
  have htw : v.takeWhile (fun c => c ≠ '#') = v := by
    apply takeWhile_all
    intro x hx
    simp only [ne_eq, decide_eq_true_eq]
    intro h
    exact hh (h ▸ hx)
  have hany : v.any isQuoteChar = false := by
    rw [List.any_eq_false]
    intro x hx
    simp only [isQuoteChar, Bool.or_eq_true, decide_eq_true_eq, not_or]
    constructor
    · intro h; exact hsq (h ▸ hx)
    · intro h; exact hdq (h ▸ hx)
  unfold matchUnquotedLine
  rw [matchKeyEq_key _ _ hk]
  show (if (v.takeWhile fun c => c ≠ '#').isEmpty = true then none
      else if (v.takeWhile fun c => c ≠ '#').any isQuoteChar = true then none
      else some (k, trimWs (v.takeWhile fun c => c ≠ '#'))) = some (k, trimWs v)
  rw [htw, if_neg (by simp [List.isEmpty_iff, hne]), if_neg (by simp [hany])]

theorem matchUnquotedLine_on_quoted {q : Char} (k v : Str) (hk : identOk k = true)
    (hq : isQuoteChar q = true) (hqh : ¬ q = '#') :
    matchUnquotedLine (k ++ '=' :: q :: (v ++ [q])) = none := by
  unfold matchUnquotedLine
  rw [matchKeyEq_key _ _ hk]
  simp [List.takeWhile_cons, hqh, hq]

/-! ### Helper lemmas: line splitting -/

theorem splitLines_no_nl (l : Str) (h : '\n' ∉ l) : splitLines l = [l] := by
  induction l with
  | nil => rfl
  | cons c cs ih =>
    have hc : ¬ c = '\n' := by intro hc; subst hc; exact h (List.mem_cons_self _ _)
    have h' : '\n' ∉ cs := fun hm => h (List.mem_cons_of_mem _ hm)
    simp [splitLines, hc, ih h']

theorem splitLines_append (l rest : Str) (h : '\n' ∉ l) :
    splitLines (l ++ '\n' :: rest) = l :: splitLines rest := by
  induction l with
  | nil => simp [splitLines]
  | cons c cs ih =>
    have hc : ¬ c = '\n' := by intro hc; subst hc; exact h (List.mem_cons_self _ _)
    have h' : '\n' ∉ cs := fun hm => h (List.mem_cons_of_mem _ hm)
    simp [splitLines, hc, ih h']

theorem splitLines_join_two (l1 l2 : Str) (h1 : '\n' ∉ l1) (h2 : '\n' ∉ l2) :
    splitLines (joinLines [l1, l2]) = [l1, l2] := by
  show splitLines (l1 ++ '\n' :: joinLines [l2]) = [l1, l2]
  rw [splitLines_append _ _ h1]
  show l1 :: splitLines l2 = [l1, l2]
  rw [splitLines_no_nl _ h2]

theorem splitLines_join_three (l1 l2 l3 : Str)
    (h1 : '\n' ∉ l1) (h2 : '\n' ∉ l2) (h3 : '\n' ∉ l3) :
    splitLines (joinLines [l1, l2, l3]) = [l1, l2, l3] := by
  show splitLines (l1 ++ '\n' :: joinLines [l2, l3]) = [l1, l2, l3]
  rw [splitLines_append _ _ h1]
  rw [splitLines_join_two _ _ h2 h3]

theorem nl_not_mem_mkAssign (st : QStyle) (k v : Str)
    (hk : '\n' ∉ k) (hv : '\n' ∉ v) : '\n' ∉ mkAssign st k v := by
  cases st with
  | dq =>
    intro hmem
    simp only [mkAssign, List.mem_append, List.mem_cons, List.mem_singleton] at hmem
    rcases hmem with h | h | h | h | h
    · exact hk h
    · exact absurd h (by decide)
    · exact absurd h (by decide)
    · exact hv h
    · exact absurd h (by decide)
  | sq =>
    intro hmem
    simp only [mkAssign, List.mem_append, List.mem_cons, List.mem_singleton] at hmem
    rcases hmem with h | h | h | h | h
    · exact hk h
    · exact absurd h (by decide)
    · exact absurd h (by decide)
    · exact hv h
    · exact absurd h (by decide)
  | uq =>
    intro hmem
    simp only [mkAssign, List.mem_append, List.mem_cons] at hmem
    rcases hmem with h | h | h
    · exact hk h
    · exact absurd h (by decide)
    · exact hv h

/-! ### The unified style lemma -/

theorem matchStyle_mkAssign (st st' : QStyle) (k v : Str) (hk : identOk k = true)
    (hv : valueOk st' v) (hne : st' = QStyle.uq → v ≠ []) :
    matchStyle st (mkAssign st' k v) = if st = st' then some (k, trimWs v) else none := by
  cases st' with
  | dq =>
    obtain ⟨hq, _hnl, hh⟩ := hv
    cases st with
    | dq => simpa [matchStyle, mkAssign] using matchQuotedLine_own k v hk (by decide) hq hh
    | sq =>
      simpa [matchStyle, mkAssign] using
        matchQuotedLine_other_quote (q := squoteChar) k v hk (by decide) (by decide)
    | uq =>
      simpa [matchStyle, mkAssign] using
        matchUnquotedLine_on_quoted (q := dquoteChar) k v hk (by decide) (by decide)
  | sq =>
    obtain ⟨hq, _hnl, hh⟩ := hv
    cases st with
    | dq =>
      simpa [matchStyle, mkAssign] using
        matchQuotedLine_other_quote (q := dquoteChar) k v hk (by decide) (by decide)
    | sq => simpa [matchStyle, mkAssign] using matchQuotedLine_own k v hk (by decide) hq hh
    | uq =>
      simpa [matchStyle, mkAssign] using
        matchUnquotedLine_on_quoted (q := squoteChar) k v hk (by decide) (by decide)
  | uq =>
    obtain ⟨hdq, hsq, _hnl, hh⟩ := hv
    cases st with
    | dq =>
      simpa [matchStyle, mkAssign] using
        matchQuotedLine_on_unquoted (q := dquoteChar) k v hk hdq
    | sq =>
      simpa [matchStyle, mkAssign] using
        matchQuotedLine_on_unquoted (q := squoteChar) k v hk hsq
    | uq =>
      simpa [matchStyle, mkAssign] using
        matchUnquotedLine_own k v hk hdq hsq hh (hne rfl)

/-! ### Helper lemmas: the guarded scalar fold -/

theorem applyScalarMatch_name (info : PkgbuildInfo) (m : Str × Str) :
    (applyScalarMatch info m).name =
      if m.1 = pkgnameKey && info.name.isEmpty then m.2 else info.name := by
  unfold applyScalarMatch
  split_ifs <;> simp_all

theorem applyScalarMatch_version (info : PkgbuildInfo) (m : Str × Str) :
    (applyScalarMatch info m).version =
      if m.1 = pkgverKey && info.version.isEmpty then m.2 else info.version := by
  have d1 : pkgnameKey ≠ pkgverKey := by decide
  unfold applyScalarMatch
  split_ifs <;> simp_all

theorem applyScalarMatch_release (info : PkgbuildInfo) (m : Str × Str) :
    (applyScalarMatch info m).release =
      if m.1 = pkgrelKey && info.release.isEmpty then m.2 else info.release := by
  have d1 : pkgnameKey ≠ pkgrelKey := by decide
  have d2 : pkgverKey ≠ pkgrelKey := by decide
  unfold applyScalarMatch
  split_ifs <;> simp_all

theorem applyScalarMatch_arrays (info : PkgbuildInfo) (m : Str × Str) :
    (applyScalarMatch info m).arch = info.arch ∧
      (applyScalarMatch info m).depends = info.depends ∧
      (applyScalarMatch info m).make_depends = info.make_depends ∧
      (applyScalarMatch info m).check_depends = info.check_depends := by
  unfold applyScalarMatch
  split_ifs <;> exact ⟨rfl, rfl, rfl, rfl⟩

theorem process_name (ms : List (Str × Str)) (info : PkgbuildInfo) :
    (process_variable_matches ms info).name = scalarFold pkgnameKey ms info.name := by
  induction ms generalizing info with
  | nil => rfl
  | cons m ms ih =>
    show (process_variable_matches ms (applyScalarMatch info m)).name
      = scalarFold pkgnameKey ms
          (if m.1 = pkgnameKey && info.name.isEmpty then m.2 else info.name)
    rw [ih, applyScalarMatch_name]

theorem process_version (ms : List (Str × Str)) (info : PkgbuildInfo) :
    (process_variable_matches ms info).version = scalarFold pkgverKey ms info.version := by
  induction ms generalizing info with
  | nil => rfl
  | cons m ms ih =>
    show (process_variable_matches ms (applyScalarMatch info m)).version
      = scalarFold pkgverKey ms
          (if m.1 = pkgverKey && info.version.isEmpty then m.2 else info.version)
    rw [ih, applyScalarMatch_version]

theorem process_release (ms : List (Str × Str)) (info : PkgbuildInfo) :
    (process_variable_matches ms info).release = scalarFold pkgrelKey ms info.release := by
  induction ms generalizing info with
  | nil => rfl
  | cons m ms ih =>
    show (process_variable_matches ms (applyScalarMatch info m)).release
      = scalarFold pkgrelKey ms
          (if m.1 = pkgrelKey && info.release.isEmpty then m.2 else info.release)
    rw [ih, applyScalarMatch_release]

theorem process_arrays (ms : List (Str × Str)) (info : PkgbuildInfo) :
    (process_variable_matches ms info).arch = info.arch ∧
      (process_variable_matches ms info).depends = info.depends ∧
      (process_variable_matches ms info).make_depends = info.make_depends ∧
      (process_variable_matches ms info).check_depends = info.check_depends := by
  induction ms generalizing info with
  | nil => exact ⟨rfl, rfl, rfl, rfl⟩
  | cons m ms ih =>
    have ha := applyScalarMatch_arrays info m
    have hi := ih (applyScalarMatch info m)
    exact ⟨hi.1.trans ha.1, hi.2.1.trans ha.2.1, hi.2.2.1.trans ha.2.2.1,
      hi.2.2.2.trans ha.2.2.2⟩

theorem scalarFold_of_ne_nil {key cur : Str} (ms : List (Str × Str)) (h : cur ≠ []) :
    scalarFold key ms cur = cur := by
  induction ms with
  | nil => rfl
  | cons m ms ih =>
    show scalarFold key ms (if m.1 = key && cur.isEmpty then m.2 else cur) = cur
    have hc : cur.isEmpty = false := by simp [List.isEmpty_iff, h]
    simp [hc, ih]

theorem scalarFold_append (key : Str) (a b : List (Str × Str)) (cur : Str) :
    scalarFold key (a ++ b) cur = scalarFold key b (scalarFold key a cur) := by
  simp [scalarFold, List.foldl_append]

theorem scalarFold_ite_other {P : Prop} [Decidable P] {k key t cur : Str}
    (h : ¬ k = key) :
    scalarFold key (if P then [(k, t)] else []) cur = cur := by
  split
  · show scalarFold key [(k, t)] cur = cur
    simp [scalarFold, h]
  · rfl

theorem parse_single_name (c : Str) (info : PkgbuildInfo) :
    (parse_single_variables c info).name
      = scalarFold pkgnameKey (allScalarMatches c) info.name := by
  unfold parse_single_variables allScalarMatches
  rw [process_name, process_name, process_name, scalarFold_append, scalarFold_append]

theorem parse_single_version (c : Str) (info : PkgbuildInfo) :
    (parse_single_variables c info).version
      = scalarFold pkgverKey (allScalarMatches c) info.version := by
  unfold parse_single_variables allScalarMatches
  rw [process_version, process_version, process_version, scalarFold_append, scalarFold_append]

theorem parse_single_release (c : Str) (info : PkgbuildInfo) :
    (parse_single_variables c info).release
      = scalarFold pkgrelKey (allScalarMatches c) info.release := by
  unfold parse_single_variables allScalarMatches
  rw [process_release, process_release, process_release, scalarFold_append, scalarFold_append]

theorem parse_single_arrays (c : Str) (info : PkgbuildInfo) :
    (parse_single_variables c info).arch = info.arch ∧
      (parse_single_variables c info).depends = info.depends ∧
      (parse_single_variables c info).make_depends = info.make_depends ∧
      (parse_single_variables c info).check_depends = info.check_depends := by
  unfold parse_single_variables
  have h1 := process_arrays ((splitLines c).filterMap (matchQuotedLine dquoteChar)) info
  have h2 := process_arrays ((splitLines c).filterMap (matchQuotedLine squoteChar))
    (process_variable_matches ((splitLines c).filterMap (matchQuotedLine dquoteChar)) info)
  have h3 := process_arrays ((splitLines c).filterMap matchUnquotedLine)
    (process_variable_matches ((splitLines c).filterMap (matchQuotedLine squoteChar))
      (process_variable_matches ((splitLines c).filterMap (matchQuotedLine dquoteChar)) info))
  exact ⟨h3.1.trans (h2.1.trans h1.1), h3.2.1.trans (h2.2.1.trans h1.2.1),
    h3.2.2.1.trans (h2.2.2.1.trans h1.2.2.1), h3.2.2.2.trans (h2.2.2.2.trans h1.2.2.2)⟩

/-! ### Helper lemmas: the array pass -/

theorem apply_array_match_scalars (info : PkgbuildInfo) (m : Str × Str) :
    (apply_array_match info m).name = info.name ∧
      (apply_array_match info m).version = info.version ∧
      (apply_array_match info m).release = info.release := by
  unfold apply_array_match
  dsimp only
  split_ifs <;> exact ⟨rfl, rfl, rfl⟩

theorem foldl_array_scalars (ms : List (Str × Str)) (info : PkgbuildInfo) :
    ((ms.foldl apply_array_match info)).name = info.name ∧
      ((ms.foldl apply_array_match info)).version = info.version ∧
      ((ms.foldl apply_array_match info)).release = info.release := by
  induction ms generalizing info with
  | nil => exact ⟨rfl, rfl, rfl⟩
  | cons m ms ih =>
    have ha := apply_array_match_scalars info m
    have hi := ih (apply_array_match info m)
    exact ⟨hi.1.trans ha.1, hi.2.1.trans ha.2.1, hi.2.2.trans ha.2.2⟩

theorem parse_array_scalars (c : Str) (info : PkgbuildInfo) :
    (parse_array_variables c info).name = info.name ∧
      (parse_array_variables c info).version = info.version ∧
      (parse_array_variables c info).release = info.release :=
  foldl_array_scalars (find_array_matches c) info

theorem apply_array_match_arch (info : PkgbuildInfo) (m : Str × Str) :
    (apply_array_match info m).arch =
      if trimWs m.1 = archKey then clean_array_content m.2 else info.arch := by
  unfold apply_array_match
  dsimp only
  split_ifs <;> simp_all

theorem apply_array_match_depends (info : PkgbuildInfo) (m : Str × Str) :
    (apply_array_match info m).depends =
      if trimWs m.1 = dependsKey then clean_array_content m.2 else info.depends := by
  have d1 : ¬ dependsKey = archKey := by decide
  unfold apply_array_match
  dsimp only
  split_ifs <;> simp_all

theorem apply_array_match_make (info : PkgbuildInfo) (m : Str × Str) :
    (apply_array_match info m).make_depends =
      if trimWs m.1 = makedependsKey then clean_array_content m.2 else info.make_depends := by
  have d1 : ¬ makedependsKey = archKey := by decide
  have d2 : ¬ makedependsKey = dependsKey := by decide
  unfold apply_array_match
  dsimp only
  split_ifs <;> simp_all

theorem apply_array_match_check (info : PkgbuildInfo) (m : Str × Str) :
    (apply_array_match info m).check_depends =
      if trimWs m.1 = checkdependsKey then clean_array_content m.2 else info.check_depends := by
  have d1 : ¬ checkdependsKey = archKey := by decide
  have d2 : ¬ checkdependsKey = dependsKey := by decide
  have d3 : ¬ checkdependsKey = makedependsKey := by decide
  unfold apply_array_match
  dsimp only
  split_ifs <;> simp_all

theorem foldl_array_arch (ms : List (Str × Str)) (info : PkgbuildInfo) :
    (ms.foldl apply_array_match info).arch = lastClean archKey ms info.arch := by
  induction ms generalizing info with
  | nil => rfl
  | cons m ms ih =>
    show (ms.foldl apply_array_match (apply_array_match info m)).arch
      = lastClean archKey ms
          (if trimWs m.1 = archKey then clean_array_content m.2 else info.arch)
    rw [ih, apply_array_match_arch]

theorem foldl_array_depends (ms : List (Str × Str)) (info : PkgbuildInfo) :
    (ms.foldl apply_array_match info).depends = lastClean dependsKey ms info.depends := by
  induction ms generalizing info with
  | nil => rfl
  | cons m ms ih =>
    show (ms.foldl apply_array_match (apply_array_match info m)).depends
      = lastClean dependsKey ms
          (if trimWs m.1 = dependsKey then clean_array_content m.2 else info.depends)
    rw [ih, apply_array_match_depends]

theorem foldl_array_make (ms : List (Str × Str)) (info : PkgbuildInfo) :
    (ms.foldl apply_array_match info).make_depends
      = lastClean makedependsKey ms info.make_depends := by
  induction ms generalizing info with
  | nil => rfl
  | cons m ms ih =>
    show (ms.foldl apply_array_match (apply_array_match info m)).make_depends
      = lastClean makedependsKey ms
          (if trimWs m.1 = makedependsKey then clean_array_content m.2 else info.make_depends)
    rw [ih, apply_array_match_make]

theorem foldl_array_check (ms : List (Str × Str)) (info : PkgbuildInfo) :
    (ms.foldl apply_array_match info).check_depends
      = lastClean checkdependsKey ms info.check_depends := by
  induction ms generalizing info with
  | nil => rfl
  | cons m ms ih =>
    show (ms.foldl apply_array_match (apply_array_match info m)).check_depends
      = lastClean checkdependsKey ms
          (if trimWs m.1 = checkdependsKey then clean_array_content m.2 else info.check_depends)
    rw [ih, apply_array_match_check]

/-! ### Helper lemmas: the fallback pass -/

theorem fallback_name (c : Str) (info : PkgbuildInfo) :
    (fallback_parse c info).name = scalarFold pkgnameKey (fallbackMatches c) info.name :=
  process_name _ _

theorem fallback_version (c : Str) (info : PkgbuildInfo) :
    (fallback_parse c info).version = scalarFold pkgverKey (fallbackMatches c) info.version :=
  process_version _ _

theorem fallback_release (c : Str) (info : PkgbuildInfo) :
    (fallback_parse c info).release = scalarFold pkgrelKey (fallbackMatches c) info.release :=
  process_release _ _

theorem fallback_arrays (c : Str) (info : PkgbuildInfo) :
    (fallback_parse c info).arch = info.arch ∧
      (fallback_parse c info).depends = info.depends ∧
      (fallback_parse c info).make_depends = info.make_depends ∧
      (fallback_parse c info).check_depends = info.check_depends :=
  process_arrays _ _

/-! ### Helper lemmas: array-body cleaning -/

theorem replaceDoubleSpace_cons (c : Char) (rest : Str)
    (h : ∀ (r : List Char), c = ' ' → rest = ' ' :: r → False) :
    replaceDoubleSpace (c :: rest) = c :: replaceDoubleSpace rest := by
  rw [replaceDoubleSpace.eq_def]
  split
  · next r heq =>
    rw [List.cons_eq_cons] at heq
    exact (h r heq.1 heq.2).elim
  · next heq =>
    rw [List.cons_eq_cons] at heq
    rw [heq.1, heq.2]
  · next heq => simp at heq

theorem splitWsAux_replaceDoubleSpace (s acc : Str) :
    splitWsAux (replaceDoubleSpace s) acc = splitWsAux s acc := by
  induction s using replaceDoubleSpace.induct generalizing acc with
  | case1 rest ih =>
    show splitWsAux (' ' :: replaceDoubleSpace rest) acc = splitWsAux (' ' :: ' ' :: rest) acc
    have hws : isWs ' ' = true := by decide
    simp only [splitWsAux, hws, if_true, List.isEmpty_nil, ih]
  | case2 c rest h ih =>
    rw [replaceDoubleSpace_cons c rest h]
    simp only [splitWsAux, ih]
  | case3 => rfl

theorem splitWsAux_mapNlTab (s acc : Str) :
    splitWsAux (mapNlTab s) acc = splitWsAux s acc := by
  induction s generalizing acc with
  | nil => rfl
  | cons c rest ih =>
    show splitWsAux ((if c = '\n' || c = '\t' then ' ' else c) :: mapNlTab rest) acc
      = splitWsAux (c :: rest) acc
    cases hc : (c = '\n' || c = '\t') with
    | true =>
      have hcs : c = '\n' ∨ c = '\t' := by simpa using hc
      have hcw : isWs c = true := by rcases hcs with rfl | rfl <;> decide
      have hsw : isWs ' ' = true := by decide
      simp only [hc, if_true, splitWsAux, hsw, hcw, ih]
    | false =>
      simp [hc, splitWsAux, ih]

theorem mapNlTab_removeQuotes (s : Str) :
    removeQuotes (mapNlTab s) = mapNlTab (removeQuotes s) := by
  unfold removeQuotes
  induction s with
  | nil => rfl
  | cons c rest ih =>
    have hq : isQuoteChar (if c = '\n' || c = '\t' then ' ' else c) = isQuoteChar c := by
      cases hcc : (c = '\n' || c = '\t') with
      | true =>
        have hcs : c = '\n' ∨ c = '\t' := by simpa using hcc
        simp only [hcc, if_true]
        rcases hcs with rfl | rfl <;> decide
      | false => simp [hcc]
    show List.filter (fun d => !isQuoteChar d)
        ((if c = '\n' || c = '\t' then ' ' else c) :: mapNlTab rest)
      = mapNlTab (List.filter (fun d => !isQuoteChar d) (c :: rest))
    rw [List.filter_cons, List.filter_cons, hq]
    cases hqc : isQuoteChar c with
    | true => simpa [hqc] using ih
    | false =>
      simp only [hqc, Bool.not_false, if_true]
      show (if c = '\n' || c = '\t' then ' ' else c) :: List.filter _ (mapNlTab rest)
        = mapNlTab (c :: List.filter _ rest)
      rw [ih]
      rfl

theorem clean_eq_specClean (body : Str) :
    clean_array_content body = specArrayClean body := by
  unfold clean_array_content specArrayClean
  show (splitWs (replaceDoubleSpace (removeQuotes (mapNlTab (stripComments body))))).filter _
    = (splitWs (removeQuotes (stripComments body))).filter _
  unfold splitWs
  rw [splitWsAux_replaceDoubleSpace, mapNlTab_removeQuotes, splitWsAux_mapNlTab]

/-! ### Helper lemmas: token shape (C10) -/

theorem splitWsAux_tokens {S : Char → Prop} (s acc : Str)
    (hs : ∀ c ∈ s, S c) (hacc : ∀ c ∈ acc, isWs c = false ∧ S c) :
    ∀ t ∈ splitWsAux s acc, t ≠ [] ∧ ∀ c ∈ t, isWs c = false ∧ S c := by
  induction s generalizing acc with
  | nil =>
    intro t ht
    unfold splitWsAux at ht
    by_cases ha : acc.isEmpty = true
    · simp [ha] at ht
    · simp only [ha, if_false] at ht
      rcases List.mem_singleton.mp ht with rfl
      refine ⟨?_, ?_⟩
      · rw [ne_eq, List.reverse_eq_nil_iff]
        intro hn
        exact ha (by simp [hn])
      · intro c hc
        exact hacc c (List.mem_reverse.mp hc)
  | cons c rest ih =>
    intro t ht
    have hSc : S c := hs c (List.mem_cons_self _ _)
    have hs' : ∀ x ∈ rest, S x := fun x hx => hs x (List.mem_cons_of_mem _ hx)
    unfold splitWsAux at ht
    cases hw : isWs c with
    | true =>
      rw [hw] at ht
      simp only [if_true] at ht
      by_cases ha : acc.isEmpty = true
      · simp only [ha, if_true] at ht
        exact ih [] hs' (by simp) t ht
      · simp only [ha, if_false] at ht
        rcases List.mem_cons.mp ht with rfl | hmem
        · refine ⟨?_, ?_⟩
          · rw [ne_eq, List.reverse_eq_nil_iff]
            intro hn
            exact ha (by simp [hn])
          · intro d hd
            exact hacc d (List.mem_reverse.mp hd)
        · exact ih [] hs' (by simp) t hmem
    | false =>
      rw [hw] at ht
      simp only [Bool.false_eq_true, if_false] at ht
      refine ih (c :: acc) hs' ?_ t ht
      intro x hx
      rcases List.mem_cons.mp hx with rfl | hx2
      · exact ⟨hw, hSc⟩
      · exact hacc x hx2

theorem mem_joinLines {c : Char} {ls : List Str} (h : c ∈ joinLines ls) :
    c = '\n' ∨ ∃ l ∈ ls, c ∈ l := by
  induction ls with
  | nil => simp [joinLines] at h
  | cons l ls ih =>
    cases ls with
    | nil =>
      right
      exact ⟨l, List.mem_cons_self _ _, by simpa [joinLines] using h⟩
    | cons l2 ls2 =>
      rw [show joinLines (l :: l2 :: ls2) = l ++ '\n' :: joinLines (l2 :: ls2) from rfl] at h
      rcases List.mem_append.mp h with h1 | h2
      · exact Or.inr ⟨l, List.mem_cons_self _ _, h1⟩
      · rcases List.mem_cons.mp h2 with rfl | h3
        · exact Or.inl rfl
        · rcases ih h3 with h4 | ⟨lx, hlx, hcx⟩
          · exact Or.inl h4
          · exact Or.inr ⟨lx, List.mem_cons_of_mem _ hlx, hcx⟩

theorem mem_takeWhile_pred {p : Char → Bool} {l : Str} {c : Char}
    (h : c ∈ l.takeWhile p) : p c = true := by
  induction l with
  | nil => simp at h
  | cons a as ih =>
    rw [List.takeWhile_cons] at h
    by_cases hp : p a = true
    · rw [if_pos hp] at h
      rcases List.mem_cons.mp h with rfl | h2
      · exact hp
      · exact ih h2
    · rw [if_neg hp] at h
      simp at h

theorem stripComments_no_hash (s : Str) : '#' ∉ stripComments s := by
  intro hm
  unfold stripComments at hm
  rcases mem_joinLines hm with heq | ⟨l, hl, hc⟩
  · exact absurd heq (by decide)
  · rcases List.mem_map.mp hl with ⟨l0, hl0, rfl⟩
    have hp := mem_takeWhile_pred hc
    simp at hp

theorem mem_mapNlTab {c : Char} {s : Str} (h : c ∈ mapNlTab s) : c = ' ' ∨ c ∈ s := by
  unfold mapNlTab at h
  rcases List.mem_map.mp h with ⟨a, ha, heq⟩
  by_cases hc : (a = '\n' || a = '\t') = true
  · rw [if_pos hc] at heq
    exact Or.inl heq.symm
  · rw [if_neg hc] at heq
    exact Or.inr (heq ▸ ha)

theorem mem_removeQuotes {c : Char} {s : Str} (h : c ∈ removeQuotes s) :
    c ∈ s ∧ isQuoteChar c = false := by
  unfold removeQuotes at h
  have hf := List.mem_filter.mp h
  exact ⟨hf.1, by simpa using hf.2⟩

theorem replaceDoubleSpace_two (rest : Str) :
    replaceDoubleSpace (' ' :: ' ' :: rest) = ' ' :: replaceDoubleSpace rest := by
  rw [replaceDoubleSpace.eq_def]
  rfl

theorem mem_replaceDoubleSpace {c : Char} {s : Str} (h : c ∈ replaceDoubleSpace s) :
    c ∈ s := by
  induction s using replaceDoubleSpace.induct with
  | case1 rest ih =>
    rw [replaceDoubleSpace_two] at h
    rcases List.mem_cons.mp h with rfl | h2
    · exact List.mem_cons_self _ _
    · exact List.mem_cons_of_mem _ (List.mem_cons_of_mem _ (ih h2))
  | case2 d rest hne ih =>
    rw [replaceDoubleSpace_cons d rest hne] at h
    rcases List.mem_cons.mp h with rfl | h2
    · exact List.mem_cons_self _ _
    · exact List.mem_cons_of_mem _ (ih h2)
  | case3 => simp [replaceDoubleSpace] at h

theorem clean_array_content_tokens (body : Str) :
    ∀ t ∈ clean_array_content body, goodToken t := by
  intro t ht
  have ht1 : t ∈ splitWsAux
      (replaceDoubleSpace (removeQuotes (mapNlTab (stripComments body)))) [] :=
    (List.mem_filter.mp ht).1
  have key := splitWsAux_tokens
    (S := fun c => c ≠ squoteChar ∧ c ≠ dquoteChar ∧ c ≠ '#')
    (replaceDoubleSpace (removeQuotes (mapNlTab (stripComments body)))) []
    ?_ (by simp) t ht1
  · exact ⟨key.1, fun c hc => ⟨(key.2 c hc).1, (key.2 c hc).2.1, (key.2 c hc).2.2.1,
      (key.2 c hc).2.2.2⟩⟩
  · intro c hc
    have hc1 := mem_replaceDoubleSpace hc
    obtain ⟨hc2, hq⟩ := mem_removeQuotes hc1
    have hqs : c ≠ squoteChar ∧ c ≠ dquoteChar := by
      constructor <;> (intro heq; subst heq; simp [isQuoteChar] at hq)
    refine ⟨hqs.1, hqs.2, ?_⟩
    rcases mem_mapNlTab hc2 with rfl | hc3
    · decide
    · intro heq
      subst heq
      exact stripComments_no_hash _ hc3

theorem apply_array_good (info : PkgbuildInfo) (m : Str × Str) (h : goodLists info) :
    goodLists (apply_array_match info m) := by
  have hc := clean_array_content_tokens m.2
  obtain ⟨h1, h2, h3, h4⟩ := h
  unfold apply_array_match
  dsimp only
  split_ifs
  · exact ⟨hc, h2, h3, h4⟩
  · exact ⟨h1, hc, h3, h4⟩
  · exact ⟨h1, h2, hc, h4⟩
  · exact ⟨h1, h2, h3, hc⟩
  · exact ⟨h1, h2, h3, h4⟩

theorem foldl_array_good (ms : List (Str × Str)) (info : PkgbuildInfo)
    (h : goodLists info) : goodLists (ms.foldl apply_array_match info) := by
  induction ms generalizing info with
  | nil => exact h
  | cons m ms ih => exact ih _ (apply_array_good info m h)

theorem goodLists_of_fields {a b : PkgbuildInfo} (h : goodLists a)
    (e1 : b.arch = a.arch) (e2 : b.depends = a.depends)
    (e3 : b.make_depends = a.make_depends) (e4 : b.check_depends = a.check_depends) :
    goodLists b := by
  obtain ⟨h1, h2, h3, h4⟩ := h
  exact ⟨e1 ▸ h1, e2 ▸ h2, e3 ▸ h3, e4 ▸ h4⟩

theorem parseInfo_good (c : Str) : goodLists (parseInfo c) := by
  have h0 : goodLists PkgbuildInfo.new := ⟨by simp [PkgbuildInfo.new], by simp [PkgbuildInfo.new],
    by simp [PkgbuildInfo.new], by simp [PkgbuildInfo.new]⟩
  have h1 : goodLists (parse_single_variables c PkgbuildInfo.new) := by
    obtain ⟨e1, e2, e3, e4⟩ := parse_single_arrays c PkgbuildInfo.new
    exact goodLists_of_fields h0 e1 e2 e3 e4
  have h2 : goodLists (primaryPasses c) := foldl_array_good _ _ h1
  unfold parseInfo
  dsimp only
  split
  · obtain ⟨e1, e2, e3, e4⟩ := fallback_arrays c (primaryPasses c)
    exact goodLists_of_fields h2 e1 e2 e3 e4
  · exact h2

/-! ### Helper lemmas: assembling pass match lists (C2, C3) -/

theorem filterMap_cons_matchline {f : Str → Option (Str × Str)} {a : Str}
    (l : List Str) {P : Prop} [Decidable P] {b : Str × Str}
    (h : f a = if P then some b else none) :
    (a :: l).filterMap f = (if P then [b] else []) ++ l.filterMap f := by
  by_cases hp : P <;> simp [List.filterMap_cons, h, hp]

theorem scalarFold_styleBlocks (key t : Str) (s' : QStyle) :
    scalarFold key ((if QStyle.dq = s' then [(key, t)] else []) ++
      ((if QStyle.sq = s' then [(key, t)] else []) ++
        (if QStyle.uq = s' then [(key, t)] else []))) [] = t := by
  cases s' <;> simp [scalarFold]

theorem scalarFold_two_decls (key ta tb : Str) (sa sb : QStyle)
    (ha : ta ≠ []) (hb : tb ≠ []) :
    scalarFold key
      (((if QStyle.dq = sa then [(key, ta)] else [])
          ++ (if QStyle.dq = sb then [(key, tb)] else []))
        ++ ((if QStyle.sq = sa then [(key, ta)] else [])
          ++ (if QStyle.sq = sb then [(key, tb)] else []))
        ++ ((if QStyle.uq = sa then [(key, ta)] else [])
          ++ (if QStyle.uq = sb then [(key, tb)] else []))) []
      = if styleRank sa ≤ styleRank sb then ta else tb := by
  have ha' : ta.isEmpty = false := by
    cases ta with
    | nil => exact absurd rfl ha
    | cons x xs => rfl
  have hb' : tb.isEmpty = false := by
    cases tb with
    | nil => exact absurd rfl hb
    | cons x xs => rfl
  cases sa <;> cases sb <;> simp [scalarFold, styleRank, ha', hb', ha, hb]

theorem isEmpty_eq_false {l : Str} (h : l ≠ []) : l.isEmpty = false := by
  cases l with
  | nil => exact absurd rfl h
  | cons a as => rfl

theorem valueOk_nl {st : QStyle} {v : Str} (h : valueOk st v) : '\n' ∉ v := by
  cases st with
  | dq => exact h.2.1
  | sq => exact h.2.1
  | uq => exact h.2.2.1

theorem scalarFold_guarded (key : Str) (ms : List (Str × Str)) (cur : Str) :
    scalarFold key ms cur = if cur.isEmpty then scalarFold key ms [] else cur := by
  cases hc : cur.isEmpty with
  | true =>
    have he : cur = [] := List.isEmpty_iff.mp hc
    subst he
    simp
  | false =>
    have hne : cur ≠ [] := by
      intro h
      subst h
      simp at hc
    rw [if_neg (by simp [hc])]
    exact scalarFold_of_ne_nil ms hne

/-! ### The claims -/

/-- Claim C1: parsing the six-line demo manifest succeeds and returns the
record `{name: "demo", version: "1.0.0", release: "1",
arch: ["x86_64","aarch64"], depends: ["glibc"], make_depends:
["gcc","make"], check_depends: []}`, on which `full_version` returns
`"1.0.0-1"` and `all_dependencies` returns `["glibc","gcc","make"]`. -/
theorem claim_c1 :
    parse demoPath demoContent = Except.ok demoInfo
      ∧ demoInfo.full_version = ("1.0.0-1").toList
      ∧ demoInfo.all_dependencies = [("glibc").toList, ("gcc").toList, ("make").toList] :=
  ⟨rfl, rfl, rfl⟩

/-- Claim C2, counterexample: the spec grammar allows `#` inside a quoted
VALUE, but for the manifest `pkgname="a#b" / pkgver="1.0" / pkgrel="1"`
parsing succeeds with name `"a"`, not `"a#b"` — the quoted regexes exclude
`#` from the value class, so the line falls through to the fallback pass,
which truncates the value at the comment character. -/
theorem claim_c2_counterexample :
    parse demoPath hashValueContent = Except.ok (parseInfo hashValueContent)
      ∧ (parseInfo hashValueContent).name = ("a").toList
      ∧ ("a").toList ≠ ("a#b").toList :=
  ⟨rfl, rfl, by decide⟩

/-- Claim C2 as amended: for every manifest declaring `pkgname`, `pkgver`
and `pkgrel`, each via a single one of the three scalar quoting styles,
where a quoted VALUE excludes the matching quote character, the newline
**and `#`** (and an unquoted VALUE excludes quote characters, the newline
and `#`), and whose trimmed values are non-empty, parsing succeeds and
yields exactly those values trimmed of surrounding whitespace and
quotes. -/
theorem claim_c2_amended (path : Str) (s1 s2 s3 : QStyle) (n v r : Str)
    (h1 : valueOk s1 n) (h2 : valueOk s2 v) (h3 : valueOk s3 r)
    (hn : trimWs n ≠ []) (hv : trimWs v ≠ []) (hr : trimWs r ≠ []) :
    ∃ info,
      parse path (joinLines [mkAssign s1 pkgnameKey n, mkAssign s2 pkgverKey v,
        mkAssign s3 pkgrelKey r]) = Except.ok info
      ∧ info.name = trimWs n ∧ info.version = trimWs v ∧ info.release = trimWs r := by
  have hnn : n ≠ [] := fun h => hn (by rw [h]; rfl)
  have hvv : v ≠ [] := fun h => hv (by rw [h]; rfl)
  have hrr : r ≠ [] := fun h => hr (by rw [h]; rfl)
  have hsplit : splitLines (joinLines [mkAssign s1 pkgnameKey n,
      mkAssign s2 pkgverKey v, mkAssign s3 pkgrelKey r])
      = [mkAssign s1 pkgnameKey n, mkAssign s2 pkgverKey v, mkAssign s3 pkgrelKey r] :=
    splitLines_join_three _ _ _
      (nl_not_mem_mkAssign _ _ _ (by decide) (valueOk_nl h1))
      (nl_not_mem_mkAssign _ _ _ (by decide) (valueOk_nl h2))
      (nl_not_mem_mkAssign _ _ _ (by decide) (valueOk_nl h3))
  have hffm : ∀ st : QStyle,
      (splitLines (joinLines [mkAssign s1 pkgnameKey n, mkAssign s2 pkgverKey v,
        mkAssign s3 pkgrelKey r])).filterMap (matchStyle st)
      = (if st = s1 then [(pkgnameKey, trimWs n)] else [])
        ++ ((if st = s2 then [(pkgverKey, trimWs v)] else [])
          ++ (if st = s3 then [(pkgrelKey, trimWs r)] else [])) := by
    intro st
    rw [hsplit,
      filterMap_cons_matchline _ (matchStyle_mkAssign st s1 _ _ (by decide) h1 fun _ => hnn),
      filterMap_cons_matchline _ (matchStyle_mkAssign st s2 _ _ (by decide) h2 fun _ => hvv),
      filterMap_cons_matchline _ (matchStyle_mkAssign st s3 _ _ (by decide) h3 fun _ => hrr),
      List.filterMap_nil, List.append_nil]
  have hname : (primaryPasses (joinLines [mkAssign s1 pkgnameKey n,
      mkAssign s2 pkgverKey v, mkAssign s3 pkgrelKey r])).name = trimWs n := by
    unfold primaryPasses
    rw [(parse_array_scalars _ _).1, parse_single_name]
    show scalarFold pkgnameKey (allScalarMatches _) [] = trimWs n
    unfold allScalarMatches
    rw [show (splitLines (joinLines [mkAssign s1 pkgnameKey n, mkAssign s2 pkgverKey v,
          mkAssign s3 pkgrelKey r])).filterMap (matchQuotedLine dquoteChar) = _ from hffm .dq,
      show (splitLines (joinLines [mkAssign s1 pkgnameKey n, mkAssign s2 pkgverKey v,
          mkAssign s3 pkgrelKey r])).filterMap (matchQuotedLine squoteChar) = _ from hffm .sq,
      show (splitLines (joinLines [mkAssign s1 pkgnameKey n, mkAssign s2 pkgverKey v,
          mkAssign s3 pkgrelKey r])).filterMap matchUnquotedLine = _ from hffm .uq]
    simp only [scalarFold_append]
    simp only [scalarFold_ite_other (show ¬ pkgverKey = pkgnameKey by decide),
      scalarFold_ite_other (show ¬ pkgrelKey = pkgnameKey by decide)]
    rw [← scalarFold_append, ← scalarFold_append]
    exact scalarFold_styleBlocks pkgnameKey (trimWs n) s1
  have hver : (primaryPasses (joinLines [mkAssign s1 pkgnameKey n,
      mkAssign s2 pkgverKey v, mkAssign s3 pkgrelKey r])).version = trimWs v := by
    unfold primaryPasses
    rw [(parse_array_scalars _ _).2.1, parse_single_version]
    show scalarFold pkgverKey (allScalarMatches _) [] = trimWs v
    unfold allScalarMatches
    rw [show (splitLines (joinLines [mkAssign s1 pkgnameKey n, mkAssign s2 pkgverKey v,
          mkAssign s3 pkgrelKey r])).filterMap (matchQuotedLine dquoteChar) = _ from hffm .dq,
      show (splitLines (joinLines [mkAssign s1 pkgnameKey n, mkAssign s2 pkgverKey v,
          mkAssign s3 pkgrelKey r])).filterMap (matchQuotedLine squoteChar) = _ from hffm .sq,
      show (splitLines (joinLines [mkAssign s1 pkgnameKey n, mkAssign s2 pkgverKey v,
          mkAssign s3 pkgrelKey r])).filterMap matchUnquotedLine = _ from hffm .uq]
    simp only [scalarFold_append]
    simp only [scalarFold_ite_other (show ¬ pkgnameKey = pkgverKey by decide),
      scalarFold_ite_other (show ¬ pkgrelKey = pkgverKey by decide)]
    rw [← scalarFold_append, ← scalarFold_append]
    exact scalarFold_styleBlocks pkgverKey (trimWs v) s2
  have hrel : (primaryPasses (joinLines [mkAssign s1 pkgnameKey n,
      mkAssign s2 pkgverKey v, mkAssign s3 pkgrelKey r])).release = trimWs r := by
    unfold primaryPasses
    rw [(parse_array_scalars _ _).2.2, parse_single_release]
    show scalarFold pkgrelKey (allScalarMatches _) [] = trimWs r
    unfold allScalarMatches
    rw [show (splitLines (joinLines [mkAssign s1 pkgnameKey n, mkAssign s2 pkgverKey v,
          mkAssign s3 pkgrelKey r])).filterMap (matchQuotedLine dquoteChar) = _ from hffm .dq,
      show (splitLines (joinLines [mkAssign s1 pkgnameKey n, mkAssign s2 pkgverKey v,
          mkAssign s3 pkgrelKey r])).filterMap (matchQuotedLine squoteChar) = _ from hffm .sq,
      show (splitLines (joinLines [mkAssign s1 pkgnameKey n, mkAssign s2 pkgverKey v,
          mkAssign s3 pkgrelKey r])).filterMap matchUnquotedLine = _ from hffm .uq]
    simp only [scalarFold_append]
    simp only [scalarFold_ite_other (show ¬ pkgnameKey = pkgrelKey by decide),
      scalarFold_ite_other (show ¬ pkgverKey = pkgrelKey by decide)]
    rw [← scalarFold_append, ← scalarFold_append]
    exact scalarFold_styleBlocks pkgrelKey (trimWs r) s3
  have hmr : missingRequired (primaryPasses (joinLines [mkAssign s1 pkgnameKey n,
      mkAssign s2 pkgverKey v, mkAssign s3 pkgrelKey r])) = false := by
    unfold missingRequired
    rw [hname, hver, hrel, isEmpty_eq_false hn, isEmpty_eq_false hv, isEmpty_eq_false hr]
    rfl
  have hpi : parseInfo (joinLines [mkAssign s1 pkgnameKey n,
      mkAssign s2 pkgverKey v, mkAssign s3 pkgrelKey r])
      = primaryPasses (joinLines [mkAssign s1 pkgnameKey n,
        mkAssign s2 pkgverKey v, mkAssign s3 pkgrelKey r]) := by
    unfold parseInfo
    dsimp only
    rw [hmr]
    simp
  refine ⟨primaryPasses (joinLines [mkAssign s1 pkgnameKey n,
    mkAssign s2 pkgverKey v, mkAssign s3 pkgrelKey r]), ?_, hname, hver, hrel⟩
  unfold parse validate_info
  rw [hpi, hmr]
  simp

/-- Claim C2 witness: the amended claim applied to
`pkgname="demo" / pkgver='1.0.0' / pkgrel=1`. -/
theorem claim_c2_witness :
    ∃ info,
      parse demoPath (joinLines [mkAssign QStyle.dq pkgnameKey ("demo").toList,
        mkAssign QStyle.sq pkgverKey ("1.0.0").toList,
        mkAssign QStyle.uq pkgrelKey ("1").toList]) = Except.ok info
      ∧ info.name = trimWs (("demo").toList)
      ∧ info.version = trimWs (("1.0.0").toList)
      ∧ info.release = trimWs (("1").toList) :=
  claim_c2_amended demoPath QStyle.dq QStyle.sq QStyle.uq _ _ _
    (by decide) (by decide) (by decide) (by decide) (by decide) (by decide)

/-- Claim C3: for a manifest that declares `pkgname` twice (styles `sa`,
`sb`, values `va`, `vb`, both with non-empty trimmed values), the retained
name is the first occurrence captured in scan order — the double-quoted
pass scanned in full first, then the single-quoted pass, then the unquoted
pass, each left to right — so with `styleRank` the pass order, the
line-one value wins exactly when its style's pass does not come later than
line two's; in particular the first match across the passes wins, never
the last, and an earlier-declared quoted assignment takes precedence over
a later unquoted one. -/
theorem claim_c3 (sa sb : QStyle) (va vb : Str)
    (hva : valueOk sa va) (hvb : valueOk sb vb)
    (ha : trimWs va ≠ []) (hb : trimWs vb ≠ []) :
    (parseInfo (joinLines [mkAssign sa pkgnameKey va, mkAssign sb pkgnameKey vb])).name
      = if styleRank sa ≤ styleRank sb then trimWs va else trimWs vb := by
  have haa : va ≠ [] := fun h => ha (by rw [h]; rfl)
  have hbb : vb ≠ [] := fun h => hb (by rw [h]; rfl)
  have hsplit : splitLines (joinLines [mkAssign sa pkgnameKey va, mkAssign sb pkgnameKey vb])
      = [mkAssign sa pkgnameKey va, mkAssign sb pkgnameKey vb] :=
    splitLines_join_two _ _
      (nl_not_mem_mkAssign _ _ _ (by decide) (valueOk_nl hva))
      (nl_not_mem_mkAssign _ _ _ (by decide) (valueOk_nl hvb))
  have hffm : ∀ st : QStyle,
      (splitLines (joinLines [mkAssign sa pkgnameKey va,
        mkAssign sb pkgnameKey vb])).filterMap (matchStyle st)
      = (if st = sa then [(pkgnameKey, trimWs va)] else [])
        ++ (if st = sb then [(pkgnameKey, trimWs vb)] else []) := by
    intro st
    rw [hsplit,
      filterMap_cons_matchline _ (matchStyle_mkAssign st sa _ _ (by decide) hva fun _ => haa),
      filterMap_cons_matchline _ (matchStyle_mkAssign st sb _ _ (by decide) hvb fun _ => hbb),
      List.filterMap_nil, List.append_nil]
  have hname : (primaryPasses (joinLines [mkAssign sa pkgnameKey va,
      mkAssign sb pkgnameKey vb])).name
      = if styleRank sa ≤ styleRank sb then trimWs va else trimWs vb := by
    unfold primaryPasses
    rw [(parse_array_scalars _ _).1, parse_single_name]
    show scalarFold pkgnameKey (allScalarMatches _) [] = _
    unfold allScalarMatches
    rw [show (splitLines (joinLines [mkAssign sa pkgnameKey va,
          mkAssign sb pkgnameKey vb])).filterMap (matchQuotedLine dquoteChar) = _ from hffm .dq,
      show (splitLines (joinLines [mkAssign sa pkgnameKey va,
          mkAssign sb pkgnameKey vb])).filterMap (matchQuotedLine squoteChar) = _ from hffm .sq,
      show (splitLines (joinLines [mkAssign sa pkgnameKey va,
          mkAssign sb pkgnameKey vb])).filterMap matchUnquotedLine = _ from hffm .uq]
    exact scalarFold_two_decls pkgnameKey (trimWs va) (trimWs vb) sa sb ha hb
  have hpn : (primaryPasses (joinLines [mkAssign sa pkgnameKey va,
      mkAssign sb pkgnameKey vb])).name ≠ [] := by
    rw [hname]
    split
    · exact ha
    · exact hb
  unfold parseInfo
  dsimp only
  split
  · rw [fallback_name, scalarFold_of_ne_nil _ hpn]
    exact hname
  · exact hname

/-- Claim C3 witness: `pkgname="early"` on line one followed by
`pkgname=late` on line two retains `early` — the earlier-declared quoted
assignment takes precedence over the later unquoted one. -/
theorem claim_c3_witness :
    (parseInfo (joinLines [mkAssign QStyle.dq pkgnameKey ("early").toList,
      mkAssign QStyle.uq pkgnameKey ("late").toList])).name
      = if styleRank QStyle.dq ≤ styleRank QStyle.uq
        then trimWs (("early").toList) else trimWs (("late").toList) :=
  claim_c3 QStyle.dq QStyle.uq _ _ (by decide) (by decide) (by decide) (by decide)

/-- Claim C4: for every array body, the extracted list equals the body
with comment suffixes stripped per physical line, quote characters
removed, whitespace collapsed, and the result split on whitespace into
non-empty tokens in declaration order (`specArrayClean`, written from the
spec's words); in particular the multi-line
`depends=( 'dep1' / 'dep2>=1.0'  # comment / 'dep3' )` assignment yields
`["dep1", "dep2>=1.0", "dep3"]`. -/
theorem claim_c4 :
    (∀ body : Str, clean_array_content body = specArrayClean body)
      ∧ (parse_array_variables multiArrayContent PkgbuildInfo.new).depends
        = [("dep1").toList, ("dep2>=1.0").toList, ("dep3").toList] :=
  ⟨clean_eq_specClean, rfl⟩

/-- Claim C5: in the array pass, a recognized array key fully overwrites
its output field on every match (`apply_array_match` is exactly the
four-way overwrite dispatch, leaving the record unchanged for
unrecognized keys), and consequently each field of
`parse_array_variables` is the cleaned body of the **last** match for its
key — `lastClean`, a left fold in which every later match for the key
replaces the earlier value — or the initial field when the key never
matches. -/
theorem claim_c5 :
    (∀ (info : PkgbuildInfo) (m : Str × Str),
      apply_array_match info m =
        if trimWs m.1 = archKey then { info with arch := clean_array_content m.2 }
        else if trimWs m.1 = dependsKey then
          { info with depends := clean_array_content m.2 }
        else if trimWs m.1 = makedependsKey then
          { info with make_depends := clean_array_content m.2 }
        else if trimWs m.1 = checkdependsKey then
          { info with check_depends := clean_array_content m.2 }
        else info)
    ∧ (∀ (c : Str) (info : PkgbuildInfo),
      (parse_array_variables c info).arch
          = lastClean archKey (find_array_matches c) info.arch
        ∧ (parse_array_variables c info).depends
          = lastClean dependsKey (find_array_matches c) info.depends
        ∧ (parse_array_variables c info).make_depends
          = lastClean makedependsKey (find_array_matches c) info.make_depends
        ∧ (parse_array_variables c info).check_depends
          = lastClean checkdependsKey (find_array_matches c) info.check_depends) :=
  ⟨fun _ _ => rfl,
   fun _ _ => ⟨foldl_array_arch _ _, foldl_array_depends _ _,
     foldl_array_make _ _, foldl_array_check _ _⟩⟩

/-- Claim C6: the fallback pass is invoked in `parseInfo` exactly when a
mandatory scalar field is still empty after the scalar and array passes;
it never changes any of the four array fields; and each mandatory scalar
field is left unchanged when already non-empty — it is recomputed (from
the fallback captures) only when still empty. -/
theorem claim_c6 :
    (∀ c : Str, parseInfo c =
      if missingRequired (primaryPasses c) then fallback_parse c (primaryPasses c)
      else primaryPasses c)
    ∧ (∀ (c : Str) (info : PkgbuildInfo),
      (fallback_parse c info).arch = info.arch
        ∧ (fallback_parse c info).depends = info.depends
        ∧ (fallback_parse c info).make_depends = info.make_depends
        ∧ (fallback_parse c info).check_depends = info.check_depends)
    ∧ (∀ (c : Str) (info : PkgbuildInfo),
      (fallback_parse c info).name
          = (if info.name.isEmpty then scalarFold pkgnameKey (fallbackMatches c) []
            else info.name)
        ∧ (fallback_parse c info).version
          = (if info.version.isEmpty then scalarFold pkgverKey (fallbackMatches c) []
            else info.version)
        ∧ (fallback_parse c info).release
          = (if info.release.isEmpty then scalarFold pkgrelKey (fallbackMatches c) []
            else info.release)) := by
  refine ⟨fun c => rfl, fallback_arrays, fun c info => ⟨?_, ?_, ?_⟩⟩
  · rw [fallback_name, scalarFold_guarded]
  · rw [fallback_version, scalarFold_guarded]
  · rw [fallback_release, scalarFold_guarded]

/-- Claim C7: `parse` fails exactly when one of the three mandatory
fields is still empty after all passes, and the error embeds the
validation message (which echoes the partial values found) and the file
path.  For the manifest lacking `pkgrel`, the error message contains
`pkgrel=''` (naming the missing release) while echoing `pkgname='demo'`
and `pkgver='1.0.0'`; a manifest with none of the three mandatory keys
also yields such a validation error — never a panic or a partial-success
record. -/
theorem claim_c7 :
    (∀ path c : Str, parse path c =
      if missingRequired (parseInfo c) then
        Except.error (BuilderError.pkgbuild_parse (validationMsg (parseInfo c)) path)
      else Except.ok (parseInfo c))
    ∧ (parse demoPath missingRelContent
        = Except.error (BuilderError.pkgbuild_parse
            (validationMsg (parseInfo missingRelContent)) demoPath)
      ∧ occursIn (("pkgrel=''").toList) (validationMsg (parseInfo missingRelContent)) = true
      ∧ occursIn (("pkgname='demo'").toList)
          (validationMsg (parseInfo missingRelContent)) = true
      ∧ occursIn (("pkgver='1.0.0'").toList)
          (validationMsg (parseInfo missingRelContent)) = true)
    ∧ parse demoPath nonePresentContent
        = Except.error (BuilderError.pkgbuild_parse
            (validationMsg (parseInfo nonePresentContent)) demoPath) :=
  ⟨fun path c => rfl, ⟨rfl, by decide, by decide, by decide⟩, rfl⟩

/-- Claim C8: for every record, `full_version` is the version, a hyphen,
and the release, and `all_dependencies` is the runtime list, then the
build-time list, then the test-time list, duplicates preserved. -/
theorem claim_c8 :
    ∀ info : PkgbuildInfo,
      info.full_version = info.version ++ '-' :: info.release
        ∧ info.all_dependencies = info.depends ++ info.make_depends ++ info.check_depends :=
  fun _ => ⟨rfl, rfl⟩

/-- Claim C9: parsing is deterministic and the parser holds no mutable
state: any two parser values produce identical results on the same path
and content, and repeated calls agree.  (In the embedding the compiled
pattern set is a fixed constant, so the parser value carries no state at
all — faithfully to the Rust struct, whose only fields are the six
regexes compiled from constant patterns and which takes `&self`.) -/
theorem claim_c9 :
    ∀ (p q : PkgbuildParser) (path c : Str),
      p.parseFile path c = q.parseFile path c
        ∧ p.parseFile path c = p.parseFile path c :=
  fun _ _ _ _ => ⟨rfl, rfl⟩

/-- Claim C10: every string in the four list fields of a successfully
parsed record is non-empty and contains no whitespace character, no
single quote, no double quote, and no `#`. -/
theorem claim_c10 :
    ∀ (path c : Str) (info : PkgbuildInfo),
      parse path c = Except.ok info → goodLists info := by
  intro path c info h
  unfold parse validate_info at h
  by_cases hm : missingRequired (parseInfo c) = true
  · rw [if_pos hm] at h
    exact absurd h (by simp)
  · rw [if_neg hm] at h
    cases h
    exact parseInfo_good c

/-- Claim C10 witness: the invariant holds of the demo record produced by
a successful parse. -/
theorem claim_c10_witness :
    goodLists demoInfo :=
  claim_c10 demoPath demoContent demoInfo rfl

end Pkgbuild
